import Mathlib

/-!
Shallow embedding of the matching-and-copy engine of the 3d-batch-copy
repository (src/3D文件批量复制工具.py, src/main_gui.py, src/3d-batch-copy.py),
together with proofs settling the frozen claims about it.

Python strings are modelled as `List Char`; Python `str.lower`/`str.upper`
are modelled character-wise with `Char.toLower`/`Char.toUpper` (the
filenames handled by the tool are ASCII part numbers, where the two agree
with CPython).  Filesystem side effects (directory walks, `shutil.copy2`,
`time.sleep`, `threading.Event`) are modelled by explicit data: a walk is a
list of discovered `(fileName, directory)` pairs, a copy attempt is an
oracle `Nat → Option Str` giving the failure reason of each attempt (or
`none` on success), sleeps are accumulated in a ghost list, and the stop
event is a schedule `Nat → Bool` read at successive observation points.
-/

/-- Python strings, modelled as lists of characters. -/
abbrev Str := List Char

/-- Literal helper: the character list of a Lean string literal. -/
def str (s : String) : Str := s.data

/-- Python `s.lower()` (character-wise, ASCII). -/
def lowerStr (s : Str) : Str := s.map Char.toLower

/-- Python `s.upper()` (character-wise, ASCII). -/
def upperStr (s : Str) : Str := s.map Char.toUpper

/-- Python `pat in s` (substring containment, `pat` non-empty in all uses). -/
def isSubstr (pat : Str) : Str → Bool
  | [] => pat.isEmpty
  | c :: rest => pat.isPrefixOf (c :: rest) || isSubstr pat rest

/-- Python `s.split(sep)[0]`: everything before the first occurrence of the
(non-empty) separator `sep`; the whole string when `sep` does not occur. -/
def takeBefore (sep : Str) : Str → Str
  | [] => []
  | c :: rest => if sep.isPrefixOf (c :: rest) then [] else c :: takeBefore sep rest

/-- Step 1 of `clean_filename` (src/3D文件批量复制工具.py lines 247-249):
if the name contains `"-L("`, keep only the part before its first occurrence. -/
def step1 (name : Str) : Str :=
  if isSubstr (str "-L(") name then takeBefore (str "-L(") name else name

/-- Step 2 of `clean_filename` (lines 251-253): if the name ends with `"-L"`,
keep only the part before the first occurrence of `"-L"` (Python
`name.split("-L")[0]`). -/
def step2 (name : Str) : Str :=
  if (str "-L").isSuffixOf name then takeBefore (str "-L") name else name

/-- Step 3 of `clean_filename` (lines 255-256): if the name ends with the
(upper-case) letter `L`, drop the last character (`name[:-1]`). -/
def step3 (name : Str) : Str :=
  if (str "L").isSuffixOf name then name.dropLast else name

/-- Step 4 of `clean_filename` (lines 258-260): if the name contains `"L("`,
keep only the part before its first occurrence. -/
def step4 (name : Str) : Str :=
  if isSubstr (str "L(") name then takeBefore (str "L(") name else name

/-- The normalizer `clean_filename` of src/3D文件批量复制工具.py lines 244-261
(identical in src/main_gui.py lines 45-62): the four truncation steps in
source order, then `name.lower()`. -/
def cleanFilename (name : Str) : Str :=
  lowerStr (step4 (step3 (step2 (step1 name))))

/-- The normalizer `clean_filename` of src/3d-batch-copy.py lines 76-96: only
the trailing-L drop and the `"L("` truncation, then `name.lower()`. -/
def legacyCleanFilename (name : Str) : Str :=
  lowerStr (step4 (step3 name))

/-- Python `os.path.splitext` restricted to a bare file name (no path
separators, as produced by `os.walk`/`os.scandir` entries): split at the last
dot, except that a name whose characters before that dot are all dots has no
extension (so `".cshrc"` and `"..step"` split with an empty extension). -/
def splitExt (p : Str) : Str × Str :=
  let k := p.reverse.findIdx (fun c => c == '.')
  if k < p.length then
    let i := p.length - 1 - k
    if (p.take i).any (fun c => !(c == '.')) then (p.take i, p.drop i) else (p, [])
  else (p, [])

/-- The extension test `is_step_variant` of src/3D文件批量复制工具.py lines
396-399: the lower-cased name ends with `".step"` or `".stp"`. -/
def isStepVariant (filename : Str) : Bool :=
  (str ".step").isSuffixOf (lowerStr filename) || (str ".stp").isSuffixOf (lowerStr filename)

/-- The extension test `is_xt_variant` of src/3D文件批量复制工具.py lines
390-394: the lower-cased name ends with `".xt"` or `".x_t"`. -/
def isXtVariant (filename : Str) : Bool :=
  (str ".xt").isSuffixOf (lowerStr filename) || (str ".x_t").isSuffixOf (lowerStr filename)

/-- The bucket key of a canonical key: `k[:4] if len(k) >= 4 else k`
(src/3D文件批量复制工具.py lines 422, 470). -/
def bucketKeyOf (k : Str) : Str :=
  if k.length ≥ 4 then k.take 4 else k

/-- One indexed on-disk file: the tuple `(clean_base, file, root)` appended to
a bucket at src/3D文件批量复制工具.py line 423. -/
structure CandidateEntry where
  cleanBase : Str
  fileName : Str
  directory : Str
deriving DecidableEq

/-- The file index: Python `defaultdict(list)` keyed by bucket key, modelled
as a total function (absent keys map to the empty bucket, matching both the
`defaultdict` default and the `prefix_key in index` guard, since buckets are
created non-empty and only ever appended to). -/
abbrev FileIndex := Str → List CandidateEntry

/-- The empty index (`defaultdict(list)` before any insertion). -/
def emptyIndex : FileIndex := fun _ => []

/-- Indexing one accepted file (src/3D文件批量复制工具.py lines 420-424):
strip the extension, normalize the base name, and append the entry to the
bucket of the first four characters of the canonical key. -/
def insertEntry (idx : FileIndex) (file dir : Str) : FileIndex :=
  let cb := cleanFilename (splitExt file).1
  let key := bucketKeyOf cb
  fun q => if q = key then idx q ++ [⟨cb, file, dir⟩] else idx q

/-- The directory walk data for one source root: `none` when the root does not
exist (or the walk failed and was skipped with a warning), otherwise the list
of `(fileName, containingDirectory)` pairs yielded by `os.walk` in scan
order. -/
abbrev RootScan := Option (List (Str × Str))

/-- The index builder `build_file_index` of src/3D文件批量复制工具.py lines
401-439: every walked file whose name passes `is_step_variant` (or, when
`include_xt` is enabled, `is_xt_variant`) is inserted; inaccessible roots are
skipped. -/
def buildFileIndex (roots : List RootScan) (includeXt : Bool) : FileIndex :=
  roots.foldl (fun idx root =>
    match root with
    | none => idx
    | some files =>
      files.foldl (fun idx fd =>
        if isStepVariant fd.1 then insertEntry idx fd.1 fd.2
        else if includeXt && isXtVariant fd.1 then insertEntry idx fd.1 fd.2
        else idx) idx) emptyIndex

/-- The index builder `build_file_index` of src/main_gui.py lines 195-224:
same walk, but only files whose lower-cased name ends with `".step"` are
indexed. -/
def guiBuildFileIndex (roots : List RootScan) : FileIndex :=
  roots.foldl (fun idx root =>
    match root with
    | none => idx
    | some files =>
      files.foldl (fun idx fd =>
        if (str ".step").isSuffixOf (lowerStr fd.1) then insertEntry idx fd.1 fd.2
        else idx) idx) emptyIndex

/-- The four per-item outcome statuses of the result dictionaries. -/
inductive Status where
  | success
  | notFound
  | error
  | cancelled
deriving DecidableEq

/-- One per-item result dictionary (keys `status`, `original`, `copied`,
`source`, and the optional `renamed_to`). -/
structure CopyResult where
  status : Status
  original : Str
  copied : Str
  source : Str
  renamedTo : Option Str
deriving DecidableEq

/-- The `cancelled` result dictionary (src/3D文件批量复制工具.py lines 473-479
and 486-492). -/
def cancelledResult (orig : Str) : CopyResult :=
  ⟨.cancelled, orig, str "操作已取消", [], none⟩

/-- The `not_found` result dictionary (lines 525-530). -/
def notFoundResult (orig : Str) : CopyResult :=
  ⟨.notFound, orig, str "未找到", [], none⟩

/-- The `error` result dictionary (lines 518-523), carrying the failure
reason text. -/
def errorResult (orig reason srcDir : Str) : CopyResult :=
  ⟨.error, orig, str "复制失败: " ++ reason, srcDir, none⟩

/-- The destination file name chosen by `process_item` of
src/3D文件批量复制工具.py lines 496-505: in rename mode the manifest name
plus the source file's own extension upper-cased, otherwise the source file
name verbatim.  (The code stores a full path and reports
`os.path.basename(dst_file)`; names carry no path separator, so the base name
is the name itself.) -/
def mainDstName (orig : Str) (cand : CandidateEntry) (renameFiles : Bool) : Str :=
  if renameFiles then orig ++ upperStr (splitExt cand.fileName).2 else cand.fileName

/-- The `success` result dictionary of src/3D文件批量复制工具.py lines
507-513. -/
def mainSuccessResult (orig : Str) (cand : CandidateEntry) (renameFiles : Bool) : CopyResult :=
  ⟨.success, orig, mainDstName orig cand renameFiles, cand.directory,
    if renameFiles then some orig else none⟩

/-- One full `process_item` execution together with its observable side
effects: the sleeps performed (in time units) and the number of copy attempts
executed. -/
structure ItemRun where
  result : CopyResult
  sleeps : List Nat
  attempts : Nat
deriving DecidableEq

/-- The retry loop `for attempt in range(retry_attempts)` of
src/3D文件批量复制工具.py lines 484-523, for the matched candidate: before
each attempt the stop event is read (observation points are numbered, the
entry check of `process_item` being observation 0); a failed attempt that is
not the last sleeps `2 ** attempt` and retries; the last failed attempt
returns the error result.  `a` is the current attempt index, `remaining + 1`
the number of attempts still allowed; `none` means the loop fell through
without returning (possible only when `retry_attempts = 0`), in which case
the Python `for` over the bucket continues scanning. -/
def attemptLoop (orig : Str) (cand : CandidateEntry) (renameFiles : Bool)
    (stop : Nat → Bool) (copyOutcome : Nat → Option Str) :
    Nat → Nat → List Nat → Option ItemRun
  | _, 0, _ => none
  | a, remaining + 1, sleeps =>
    if stop (a + 1) then some ⟨cancelledResult orig, sleeps, a⟩
    else
      match copyOutcome a with
      | none => some ⟨mainSuccessResult orig cand renameFiles, sleeps, a + 1⟩
      | some e =>
        if remaining = 0 then some ⟨errorResult orig e cand.directory, sleeps, a + 1⟩
        else attemptLoop orig cand renameFiles stop copyOutcome (a + 1) remaining (sleeps ++ [2 ^ a])

/-- The bucket scan `for clean_base, src_filename, src_dir in index[prefix_key]`
of src/3D文件批量复制工具.py lines 482-523: the first candidate whose
canonical key equals the search key (exact equality) enters the retry
loop. -/
def scanBucket (orig searchName : Str) (renameFiles : Bool) (stop : Nat → Bool)
    (copyOutcome : Nat → Option Str) (retryAttempts : Nat) :
    List CandidateEntry → Option ItemRun
  | [] => none
  | c :: rest =>
    if c.cleanBase = searchName then
      match attemptLoop orig c renameFiles stop copyOutcome 0 retryAttempts [] with
      | some r => some r
      | none => scanBucket orig searchName renameFiles stop copyOutcome retryAttempts rest
    else scanBucket orig searchName renameFiles stop copyOutcome retryAttempts rest

/-- The per-item worker `process_item` of src/3D文件批量复制工具.py lines
465-530 (src/main_gui.py lines 250-312 differs only in the destination
naming): `item` is `(original_name, search_name)`; an already-set stop event
yields `cancelled` immediately; otherwise the bucket of the search key's
first four characters is scanned, and a miss yields `not_found`. -/
def processItem (item : Str × Str) (index : FileIndex) (retryAttempts : Nat)
    (stop : Nat → Bool) (copyOutcome : Nat → Option Str) (renameFiles : Bool) : ItemRun :=
  if stop 0 then ⟨cancelledResult item.1, [], 0⟩
  else
    match scanBucket item.1 item.2 renameFiles stop copyOutcome retryAttempts
        (index (bucketKeyOf item.2)) with
    | some r => r
    | none => ⟨notFoundResult item.1, [], 0⟩

/-- The first candidate of a bucket whose canonical key equals the search key
(the candidate that wins under the exact-equality policy). -/
def firstMatch (searchName : Str) : List CandidateEntry → Option CandidateEntry
  | [] => none
  | c :: rest => if c.cleanBase = searchName then some c else firstMatch searchName rest

/-- The `success` result dictionary of src/3d-batch-copy.py lines 228-233
(the legacy revision reports the source file name and has no rename mode). -/
def legacySuccessResult (orig : Str) (cand : CandidateEntry) : CopyResult :=
  ⟨.success, orig, cand.fileName, cand.directory, none⟩

/-- The retry loop of src/3d-batch-copy.py lines 223-246: same backoff and
error handling as the current revision, but no stop-event checks. -/
def legacyAttemptLoop (orig : Str) (cand : CandidateEntry) (copyOutcome : Nat → Option Str) :
    Nat → Nat → List Nat → Option ItemRun
  | _, 0, _ => none
  | a, remaining + 1, sleeps =>
    match copyOutcome a with
    | none => some ⟨legacySuccessResult orig cand, sleeps, a + 1⟩
    | some e =>
      if remaining = 0 then some ⟨errorResult orig e cand.directory, sleeps, a + 1⟩
      else legacyAttemptLoop orig cand copyOutcome (a + 1) remaining (sleeps ++ [2 ^ a])

/-- The bucket scan of src/3d-batch-copy.py lines 219-221: the match test is
`clean_base.startswith(search_name)`, not exact equality. -/
def legacyScanBucket (orig searchName : Str) (copyOutcome : Nat → Option Str)
    (retryAttempts : Nat) : List CandidateEntry → Option ItemRun
  | [] => none
  | c :: rest =>
    if searchName.isPrefixOf c.cleanBase then
      match legacyAttemptLoop orig c copyOutcome 0 retryAttempts [] with
      | some r => some r
      | none => legacyScanBucket orig searchName copyOutcome retryAttempts rest
    else legacyScanBucket orig searchName copyOutcome retryAttempts rest

/-- The per-item worker `process_item` of src/3d-batch-copy.py lines
198-254. -/
def legacyProcessItem (item : Str × Str) (index : FileIndex) (retryAttempts : Nat)
    (copyOutcome : Nat → Option Str) : ItemRun :=
  match legacyScanBucket item.1 item.2 copyOutcome retryAttempts (index (bucketKeyOf item.2)) with
  | some r => r
  | none => ⟨notFoundResult item.1, [], 0⟩

/-- The destination file name chosen by `process_item` of src/main_gui.py
lines 253-258 and 286-287: in rename mode always the manifest name plus the
literal `".STEP"`, otherwise the source file name verbatim. -/
def guiDstName (orig srcFileName : Str) (renameFiles : Bool) : Str :=
  if renameFiles then orig ++ str ".STEP" else srcFileName

/-- The manifest preprocessing of src/3D文件批量复制工具.py line 569:
`[(orig, clean_filename(orig)) for orig in original_files]`. -/
def searchItems (originalFiles : List Str) : List (Str × Str) :=
  originalFiles.map (fun o => (o, cleanFilename o))

/-- The result-collection loop of src/3D文件批量复制工具.py lines 579-604:
iteration `i` first reads the stop event (schedule `sig`); if it is set the
loop breaks, otherwise the `i`-th completed result is appended to
`result_log`. -/
def collectFrom (sig : Nat → Bool) : Nat → List CopyResult → List CopyResult
  | _, [] => []
  | i, r :: rest => if sig i then [] else r :: collectFrom sig (i + 1) rest

/-- Count of collected results with a given status (the `found_count`,
`not_found_count`, `copy_errors` tallies of lines 590-595). -/
def countStatus (st : Status) (log : List CopyResult) : Nat :=
  log.countP (fun r => decide (r.status = st))

/-- The header row written by `write_result_log`
(src/3D文件批量复制工具.py line 652). -/
def logHeader : List Str :=
  [str "原始文件名", str "实际复制文件名", str "来源路径", str "重命名状态"]

/-- One log row written by `write_result_log` (lines 653-655): original name,
copied name, source path, and the rename flag derived from `renamed_to`. -/
def logRow (r : CopyResult) : List Str :=
  [r.original, r.copied, r.source, if r.renamedTo.isSome then str "是" else str "否"]

/-- The observable outcome of one orchestrator run (`worker` of
src/3D文件批量复制工具.py lines 532-643): the collected `result_log`, the
status tallies, the rows handed to `write_result_log` (`none` when no write
was attempted), and the final completion event's flag. -/
structure WorkerOut where
  resultLog : List CopyResult
  foundCount : Nat
  notFoundCount : Nat
  errorCount : Nat
  logRows : Option (List (List Str))
  completeOk : Bool
deriving DecidableEq

/-- The tail of `worker` after the futures are submitted (lines 578-643):
collect results until the stop event is observed, then persist the log rows
only when the stop event is still unset (`finalSig` is the value the event
holds at the post-loop reads of lines 611 and 643). -/
def workerTail (sig : Nat → Bool) (finalSig : Bool) (completed : List CopyResult) : WorkerOut :=
  let log := collectFrom sig 0 completed
  { resultLog := log
    foundCount := countStatus .success log
    notFoundCount := countStatus .notFound log
    errorCount := countStatus .error log
    logRows := if finalSig then none else some (logHeader :: log.map logRow)
    completeOk := !finalSig }

/-- The early-return outcome of `worker` (lines 561-564): missing or empty
manifest ends the run with no log write and a `complete False` event. -/
def emptyWorkerOut : WorkerOut := ⟨[], 0, 0, 0, none, false⟩

/-- The orchestrator `worker` of src/3D文件批量复制工具.py lines 532-643,
from the manifest read on: `manifest` is the value returned by
`read_original_file_list` (`none` on failure), `completed` the per-item
results in the completion order delivered by `as_completed`. -/
def workerRun (manifest : Option (List Str)) (sig : Nat → Bool) (finalSig : Bool)
    (completed : List CopyResult) : WorkerOut :=
  match manifest with
  | none => emptyWorkerOut
  | some lst => if lst.isEmpty then emptyWorkerOut else workerTail sig finalSig completed

/-- An initial-segment relation on lists: `InitSeg u v` holds when `v` is
`u` followed by some (possibly empty) tail. -/
def InitSeg {α : Type} (u v : List α) : Prop := ∃ t, v = u ++ t

/-! ## Character-level facts about the ASCII case maps -/

theorem char_eq_of_toNat_eq {a b : Char} (h : a.toNat = b.toNat) : a = b := by
  apply Char.eq_of_val_eq
  apply UInt32.eq_of_toBitVec_eq
  apply BitVec.eq_of_toNat_eq
  exact h

theorem toNat_ofNat_small {n : Nat} (h : n < 55296) : (Char.ofNat n).toNat = n := by
  have hv : n.isValidChar := Or.inl h
  rw [Char.ofNat, dif_pos hv]
  rfl

theorem toLower_toNat (c : Char) :
    (Char.toLower c).toNat = if c.toNat ≥ 65 ∧ c.toNat ≤ 90 then c.toNat + 32 else c.toNat := by
  simp only [Char.toLower]
  split
  · next h => rw [toNat_ofNat_small (by omega)]
  · rfl

theorem toUpper_toNat (c : Char) :
    (Char.toUpper c).toNat = if c.toNat ≥ 97 ∧ c.toNat ≤ 122 then c.toNat - 32 else c.toNat := by
  simp only [Char.toUpper]
  split
  · next h => rw [toNat_ofNat_small (by omega)]
  · rfl

/-- No character lower-cases to the upper-case letter `L`. -/
theorem toLower_ne_L (c : Char) : Char.toLower c ≠ 'L' := by
  intro h
  have h2 : (Char.toLower c).toNat = 76 := by rw [h]; rfl
  rw [toLower_toNat] at h2
  split at h2 <;> omega

theorem toLower_idem (c : Char) : Char.toLower (Char.toLower c) = Char.toLower c := by
  apply char_eq_of_toNat_eq
  rw [toLower_toNat (Char.toLower c), toLower_toNat c]
  split <;> (try split) <;> omega

theorem toUpper_toLower (c : Char) : Char.toUpper (Char.toLower c) = Char.toUpper c := by
  apply char_eq_of_toNat_eq
  rw [toUpper_toNat, toLower_toNat, toUpper_toNat]
  split <;> (try split) <;> (try split) <;> omega

/-- Only the dot itself lower-cases to a dot. -/
theorem toLower_eq_dot {c : Char} (h : Char.toLower c = '.') : c = '.' := by
  apply char_eq_of_toNat_eq
  have h2 : (Char.toLower c).toNat = 46 := by rw [h]; rfl
  have hd : ('.' : Char).toNat = 46 := rfl
  rw [toLower_toNat] at h2
  rw [hd]
  split at h2 <;> omega

/-! ## List-level helper lemmas -/

theorem isPrefixOf_mem {p s : Str} (h : p.isPrefixOf s = true) : ∀ c ∈ p, c ∈ s := by
  induction p generalizing s with
  | nil => intro c hc; cases hc
  | cons a as ih =>
    cases s with
    | nil => simp [List.isPrefixOf] at h
    | cons b bs =>
      simp only [List.isPrefixOf, Bool.and_eq_true, beq_iff_eq] at h
      intro c hc
      rcases List.mem_cons.mp hc with hc | hc
      · exact List.mem_cons.mpr (Or.inl (hc.trans h.1))
      · exact List.mem_cons.mpr (Or.inr (ih h.2 c hc))

theorem isSuffixOf_mem {p s : Str} (h : p.isSuffixOf s = true) : ∀ c ∈ p, c ∈ s := by
  rw [List.isSuffixOf_iff_suffix] at h
  exact fun c hc => h.sublist.subset hc

theorem isSubstr_mem {p s : Str} (h : isSubstr p s = true) : ∀ c ∈ p, c ∈ s := by
  induction s with
  | nil =>
    simp only [isSubstr, List.isEmpty_iff] at h
    subst h; intro c hc; cases hc
  | cons b bs ih =>
    simp only [isSubstr, Bool.or_eq_true] at h
    rcases h with h | h
    · exact isPrefixOf_mem h
    · exact fun c hc => List.mem_cons.mpr (Or.inr (ih h c hc))

theorem getLast_isSuffixOf {l : Str} {a : Char} (h : l.getLast? = some a) :
    [a].isSuffixOf l = true := by
  rw [List.isSuffixOf_iff_suffix]
  exact ⟨l.dropLast, List.dropLast_append_getLast? a h⟩

/-! ## The initial-segment relation -/

theorem initSeg_refl {α : Type} (s : List α) : InitSeg s s := ⟨[], by simp⟩

theorem initSeg_trans {α : Type} {a b c : List α} (h1 : InitSeg a b) (h2 : InitSeg b c) :
    InitSeg a c := by
  obtain ⟨t1, ht1⟩ := h1
  obtain ⟨t2, ht2⟩ := h2
  exact ⟨t1 ++ t2, by rw [ht2, ht1, List.append_assoc]⟩

theorem initSeg_map {α β : Type} (f : α → β) {a b : List α} (h : InitSeg a b) :
    InitSeg (a.map f) (b.map f) := by
  obtain ⟨t, ht⟩ := h
  exact ⟨t.map f, by rw [ht, List.map_append]⟩

theorem initSeg_length {α : Type} {a b : List α} (h : InitSeg a b) : a.length ≤ b.length := by
  obtain ⟨t, ht⟩ := h
  rw [ht, List.length_append]
  omega

theorem takeBefore_initSeg (sep s : Str) : InitSeg (takeBefore sep s) s := by
  induction s with
  | nil => exact initSeg_refl []
  | cons c rest ih =>
    simp only [takeBefore]
    split
    · exact ⟨c :: rest, rfl⟩
    · obtain ⟨t, ht⟩ := ih
      exact ⟨t, by rw [List.cons_append, ← ht]⟩

theorem dropLast_initSeg (s : Str) : InitSeg s.dropLast s := by
  cases hl : s.getLast? with
  | none =>
    rw [List.getLast?_eq_none_iff] at hl
    subst hl
    exact initSeg_refl []
  | some a => exact ⟨[a], (List.dropLast_append_getLast? a hl).symm⟩

theorem step1_initSeg (s : Str) : InitSeg (step1 s) s := by
  unfold step1; split
  · exact takeBefore_initSeg _ _
  · exact initSeg_refl _

theorem step2_initSeg (s : Str) : InitSeg (step2 s) s := by
  unfold step2; split
  · exact takeBefore_initSeg _ _
  · exact initSeg_refl _

theorem step3_initSeg (s : Str) : InitSeg (step3 s) s := by
  unfold step3; split
  · exact dropLast_initSeg _
  · exact initSeg_refl _

theorem step4_initSeg (s : Str) : InitSeg (step4 s) s := by
  unfold step4; split
  · exact takeBefore_initSeg _ _
  · exact initSeg_refl _

/-! ## Facts about the normalizer -/

/-- The output of `cleanFilename` never contains the upper-case letter `L`. -/
theorem cleanFilename_no_L {x : Str} : 'L' ∉ cleanFilename x := by
  intro h
  unfold cleanFilename lowerStr at h
  obtain ⟨d, _, hd⟩ := List.mem_map.mp h
  exact toLower_ne_L d hd

theorem step1_of_no_L {s : Str} (h : 'L' ∉ s) : step1 s = s := by
  unfold step1
  split
  · next hc =>
    exact absurd (isSubstr_mem hc 'L' (by decide)) h
  · rfl

theorem step2_of_no_L {s : Str} (h : 'L' ∉ s) : step2 s = s := by
  unfold step2
  split
  · next hc =>
    exact absurd (isSuffixOf_mem hc 'L' (by decide)) h
  · rfl

theorem step3_of_no_L {s : Str} (h : 'L' ∉ s) : step3 s = s := by
  unfold step3
  split
  · next hc =>
    exact absurd (isSuffixOf_mem hc 'L' (by decide)) h
  · rfl

theorem step4_of_no_L {s : Str} (h : 'L' ∉ s) : step4 s = s := by
  unfold step4
  split
  · next hc =>
    exact absurd (isSubstr_mem hc 'L' (by decide)) h
  · rfl

theorem lowerStr_idem (s : Str) : lowerStr (lowerStr s) = lowerStr s := by
  unfold lowerStr
  rw [List.map_map]
  exact List.map_congr_left (fun a _ => toLower_idem a)

/-! ## Claims about the normalizer -/

/-- C5: the normalizer satisfies the four example equations of the spec:
`normalize("PART123L") = "part123"`, `normalize("PART123-L(2)") = "part123"`,
`normalize("PART123L(REV2)") = "part123"`, `normalize("Part123") = "part123"`. -/
theorem claim_C5 :
    cleanFilename (str "PART123L") = str "part123" ∧
    cleanFilename (str "PART123-L(2)") = str "part123" ∧
    cleanFilename (str "PART123L(REV2)") = str "part123" ∧
    cleanFilename (str "Part123") = str "part123" := by
  refine ⟨?_, ?_, ?_, ?_⟩ <;> decide

/-- C6: the normalizer is idempotent on every string (and total by
construction; the empty string maps to the empty string). -/
theorem claim_C6 :
    (∀ x : Str, cleanFilename (cleanFilename x) = cleanFilename x) ∧
    cleanFilename (str "") = str "" := by
  constructor
  · intro x
    have hnoL : 'L' ∉ cleanFilename x := cleanFilename_no_L
    show lowerStr (step4 (step3 (step2 (step1 (cleanFilename x))))) = cleanFilename x
    rw [step1_of_no_L hnoL, step2_of_no_L hnoL, step3_of_no_L hnoL, step4_of_no_L hnoL]
    calc lowerStr (cleanFilename x)
        = lowerStr (lowerStr (step4 (step3 (step2 (step1 x))))) := rfl
      _ = lowerStr (step4 (step3 (step2 (step1 x)))) := lowerStr_idem _
      _ = cleanFilename x := rfl
  · decide

/-- C10 (implicit): the normalizer output is an initial segment of the
lower-cased input — it only removes characters from the end and lower-cases
the rest — so it is never longer than the lower-cased input. -/
theorem claim_C10 :
    ∀ x : Str, InitSeg (cleanFilename x) (lowerStr x) ∧
      (cleanFilename x).length ≤ (lowerStr x).length := by
  intro x
  have h : InitSeg (step4 (step3 (step2 (step1 x)))) x :=
    initSeg_trans (step4_initSeg _) (initSeg_trans (step3_initSeg _)
      (initSeg_trans (step2_initSeg _) (step1_initSeg _)))
  have hm : InitSeg (cleanFilename x) (lowerStr x) := initSeg_map Char.toLower h
  exact ⟨hm, initSeg_length hm⟩

/-- C4 counterexample: the trailing-letter drop is case-sensitive in the
code (`name.endswith("L")`), so `normalize("part123l")` keeps the lower-case
trailing `l` and does not equal `"part123"` as the claim asserts. -/
theorem claim_C4_counterexample :
    cleanFilename (str "part123l") = str "part123l" ∧
    ¬ cleanFilename (str "part123l") = str "part123" := by
  constructor <;> decide

/-- C4 (amended): only an upper-case trailing `L` is dropped: for every input
whose value after the two `"-L"` truncation steps has the upper-case letter
`L` as its last character, the normalizer drops that last character before
the `"L("` truncation and lower-casing; for example
`normalize("part123L") = "part123"`.  (A lower-case trailing `l` is kept, see
the counterexample.) -/
theorem claim_C4 :
    (∀ x : Str, (step2 (step1 x)).getLast? = some 'L' →
      cleanFilename x = lowerStr (step4 ((step2 (step1 x)).dropLast))) ∧
    cleanFilename (str "part123L") = str "part123" := by
  constructor
  · intro x h
    have h3 : step3 (step2 (step1 x)) = (step2 (step1 x)).dropLast := by
      unfold step3
      rw [if_pos (show (str "L").isSuffixOf (step2 (step1 x)) = true from getLast_isSuffixOf h)]
    show lowerStr (step4 (step3 (step2 (step1 x)))) = _
    rw [h3]
  · decide

/-- C4 witness: the amended statement applied at the concrete input
`"part123L"`. -/
theorem claim_C4_witness :
    (step2 (step1 (str "part123L"))).getLast? = some 'L' ∧
    cleanFilename (str "part123L") = lowerStr (step4 ((step2 (step1 (str "part123L"))).dropLast)) :=
  ⟨by decide, claim_C4.1 _ (by decide)⟩

/-! ## The bucket invariant of the file index -/

theorem foldl_preserve {α β : Type} {P : β → Prop} {f : β → α → β}
    (hf : ∀ b a, P b → P (f b a)) :
    ∀ (l : List α) (b : β), P b → P (l.foldl f b) := by
  intro l
  induction l with
  | nil => intro b hb; exact hb
  | cons x xs ih => intro b hb; exact ih _ (hf b x hb)

theorem insertEntry_bucketInv {idx : FileIndex}
    (h : ∀ b e, e ∈ idx b → bucketKeyOf e.cleanBase = b) (file dir : Str) :
    ∀ b e, e ∈ insertEntry idx file dir b → bucketKeyOf e.cleanBase = b := by
  intro b e he
  simp only [insertEntry] at he
  split at he
  · next hb =>
    rcases List.mem_append.mp he with hm | hm
    · exact h b e hm
    · rcases List.mem_singleton.mp hm with rfl
      exact hb.symm
  · exact h b e he

theorem insertEntry_fileInv {idx : FileIndex} {p : Str → Prop}
    (h : ∀ b e, e ∈ idx b → p e.fileName) {file : Str} (dir : Str) (hp : p file) :
    ∀ b e, e ∈ insertEntry idx file dir b → p e.fileName := by
  intro b e he
  simp only [insertEntry] at he
  split at he
  · rcases List.mem_append.mp he with hm | hm
    · exact h b e hm
    · rcases List.mem_singleton.mp hm with rfl
      exact hp
  · exact h b e he

theorem buildFileIndex_bucketInv (roots : List RootScan) (includeXt : Bool) :
    ∀ b e, e ∈ buildFileIndex roots includeXt b → bucketKeyOf e.cleanBase = b := by
  have base : ∀ b e, e ∈ emptyIndex b → bucketKeyOf e.cleanBase = b := by
    intro b e he
    cases he
  have stepFile : ∀ (idx : FileIndex) (fd : Str × Str),
      (∀ b e, e ∈ idx b → bucketKeyOf e.cleanBase = b) →
      ∀ b e, e ∈ (if isStepVariant fd.1 then insertEntry idx fd.1 fd.2
          else if includeXt && isXtVariant fd.1 then insertEntry idx fd.1 fd.2 else idx) b →
        bucketKeyOf e.cleanBase = b := by
    intro idx fd h
    split
    · exact insertEntry_bucketInv h fd.1 fd.2
    · split
      · exact insertEntry_bucketInv h fd.1 fd.2
      · exact h
  have stepRoot : ∀ (idx : FileIndex) (root : RootScan),
      (∀ b e, e ∈ idx b → bucketKeyOf e.cleanBase = b) →
      ∀ (b : Str) (e : CandidateEntry), e ∈ ((match root with
          | none => idx
          | some files =>
            files.foldl (fun (idx : FileIndex) (fd : Str × Str) =>
              if isStepVariant fd.1 then insertEntry idx fd.1 fd.2
              else if includeXt && isXtVariant fd.1 then insertEntry idx fd.1 fd.2 else idx) idx :
          FileIndex)) b →
        bucketKeyOf e.cleanBase = b := by
    intro idx root h
    cases root with
    | none => exact h
    | some files =>
      exact foldl_preserve (P := fun idx => ∀ b e, e ∈ idx b → bucketKeyOf e.cleanBase = b)
        stepFile files idx h
  exact foldl_preserve (P := fun idx => ∀ b e, e ∈ idx b → bucketKeyOf e.cleanBase = b)
    stepRoot roots emptyIndex base

theorem guiBuildFileIndex_stepInv (roots : List RootScan) :
    ∀ b e, e ∈ guiBuildFileIndex roots b →
      (str ".step").isSuffixOf (lowerStr e.fileName) = true := by
  have base : ∀ b e, e ∈ emptyIndex b → (str ".step").isSuffixOf (lowerStr e.fileName) = true := by
    intro b e he
    cases he
  have stepFile : ∀ (idx : FileIndex) (fd : Str × Str),
      (∀ b e, e ∈ idx b → (str ".step").isSuffixOf (lowerStr e.fileName) = true) →
      ∀ b e, e ∈ (if (str ".step").isSuffixOf (lowerStr fd.1) then insertEntry idx fd.1 fd.2
          else idx) b →
        (str ".step").isSuffixOf (lowerStr e.fileName) = true := by
    intro idx fd h
    split
    · next hs =>
      exact insertEntry_fileInv (p := fun f => (str ".step").isSuffixOf (lowerStr f) = true)
        h fd.2 hs
    · exact h
  have stepRoot : ∀ (idx : FileIndex) (root : RootScan),
      (∀ b e, e ∈ idx b → (str ".step").isSuffixOf (lowerStr e.fileName) = true) →
      ∀ (b : Str) (e : CandidateEntry), e ∈ ((match root with
          | none => idx
          | some files =>
            files.foldl (fun (idx : FileIndex) (fd : Str × Str) =>
              if (str ".step").isSuffixOf (lowerStr fd.1) then insertEntry idx fd.1 fd.2
              else idx) idx : FileIndex)) b →
        (str ".step").isSuffixOf (lowerStr e.fileName) = true := by
    intro idx root h
    cases root with
    | none => exact h
    | some files =>
      exact foldl_preserve
        (P := fun idx => ∀ b e, e ∈ idx b → (str ".step").isSuffixOf (lowerStr e.fileName) = true)
        stepFile files idx h
  exact foldl_preserve
    (P := fun idx => ∀ b e, e ∈ idx b → (str ".step").isSuffixOf (lowerStr e.fileName) = true)
    stepRoot roots emptyIndex base

/-- C8: in any built index, every candidate entry stored in bucket `b` has a
canonical key whose first four characters (or the whole key, when it is
shorter than four characters) equal `b`, for every source-root list and
extension policy. -/
theorem claim_C8 :
    ∀ (roots : List RootScan) (includeXt : Bool) (b : Str) (e : CandidateEntry),
      e ∈ buildFileIndex roots includeXt b →
      (4 ≤ e.cleanBase.length → e.cleanBase.take 4 = b) ∧
      (e.cleanBase.length < 4 → e.cleanBase = b) := by
  intro roots xt b e he
  have h := buildFileIndex_bucketInv roots xt b e he
  unfold bucketKeyOf at h
  constructor
  · intro h4
    rwa [if_pos h4] at h
  · intro h4
    rwa [if_neg (by omega)] at h

/-- C8 witness: the invariant applied to a concretely built index holding one
file `"AB.step"` (short canonical key) in bucket `"ab"`. -/
theorem claim_C8_witness :
    (⟨str "ab", str "AB.step", str "d1"⟩ : CandidateEntry) ∈
      buildFileIndex [some [(str "AB.step", str "d1")], none] false (str "ab") ∧
    ((str "ab" : Str).length < 4 → (str "ab" : Str) = str "ab") :=
  ⟨by decide, (claim_C8 [some [(str "AB.step", str "d1")], none] false (str "ab")
      ⟨str "ab", str "AB.step", str "d1"⟩ (by decide)).2⟩

/-! ## Facts about the per-item worker -/

theorem attemptLoop_isSome (orig : Str) (cand : CandidateEntry) (rf : Bool)
    (stop : Nat → Bool) (copy : Nat → Option Str) :
    ∀ (remaining a : Nat) (sleeps : List Nat), 1 ≤ remaining →
      (attemptLoop orig cand rf stop copy a remaining sleeps).isSome = true := by
  intro remaining
  induction remaining with
  | zero =>
    intro a sleeps h
    exact (Nat.not_succ_le_zero 0 h).elim
  | succ r ih =>
    intro a sleeps _
    simp only [attemptLoop]
    split
    · rfl
    · cases hc : copy a with
      | none => rfl
      | some e =>
        dsimp only
        split
        · rfl
        · next hr => exact ih (a + 1) (sleeps ++ [2 ^ a]) (Nat.one_le_iff_ne_zero.mpr hr)

theorem scanBucket_eq (orig searchName : Str) (rf : Bool) (stop : Nat → Bool)
    (copy : Nat → Option Str) (retry : Nat) (h : 1 ≤ retry) :
    ∀ bucket : List CandidateEntry,
      scanBucket orig searchName rf stop copy retry bucket =
        (firstMatch searchName bucket).bind
          (fun c => attemptLoop orig c rf stop copy 0 retry []) := by
  intro bucket
  induction bucket with
  | nil => rfl
  | cons c rest ih =>
    simp only [scanBucket, firstMatch]
    split
    · have hs := attemptLoop_isSome orig c rf stop copy retry 0 [] h
      cases hal : attemptLoop orig c rf stop copy 0 retry [] with
      | none => rw [hal] at hs; cases hs
      | some r => simp [hal]
    · simpa using ih

theorem firstMatch_spec {s : Str} :
    ∀ {bucket : List CandidateEntry} {c : CandidateEntry},
      firstMatch s bucket = some c → c.cleanBase = s ∧ c ∈ bucket := by
  intro bucket
  induction bucket with
  | nil => intro c h; cases h
  | cons d rest ih =>
    intro c h
    simp only [firstMatch] at h
    split at h
    · next hd =>
      injection h with h
      subst h
      exact ⟨hd, List.mem_cons_self _ _⟩
    · obtain ⟨h1, h2⟩ := ih h
      exact ⟨h1, List.mem_cons.mpr (Or.inr h2)⟩

theorem processItem_noMatch (item : Str × Str) (index : FileIndex) (retry : Nat)
    (stop : Nat → Bool) (copy : Nat → Option Str) (rf : Bool)
    (h0 : stop 0 = false) (h : 1 ≤ retry)
    (hm : firstMatch item.2 (index (bucketKeyOf item.2)) = none) :
    processItem item index retry stop copy rf = ⟨notFoundResult item.1, [], 0⟩ := by
  unfold processItem
  rw [if_neg (by simp [h0]), scanBucket_eq item.1 item.2 rf stop copy retry h, hm]
  rfl

theorem processItem_matched (item : Str × Str) (index : FileIndex) (retry : Nat)
    (stop : Nat → Bool) (copy : Nat → Option Str) (rf : Bool)
    (h0 : stop 0 = false) (h : 1 ≤ retry) {c : CandidateEntry} {run : ItemRun}
    (hm : firstMatch item.2 (index (bucketKeyOf item.2)) = some c)
    (hal : attemptLoop item.1 c rf stop copy 0 retry [] = some run) :
    processItem item index retry stop copy rf = run := by
  unfold processItem
  rw [if_neg (by simp [h0]), scanBucket_eq item.1 item.2 rf stop copy retry h, hm]
  simp [hal]

theorem range_pow_shift (a k : Nat) :
    2 ^ a :: (List.range k).map (fun j => 2 ^ (a + 1 + j)) =
      (List.range (k + 1)).map (fun j => 2 ^ (a + j)) := by
  rw [List.range_succ_eq_map]
  simp only [List.map_cons, Nat.add_zero, List.map_map]
  congr 1
  apply List.map_congr_left
  intro j _
  simp only [Function.comp]
  congr 1
  omega

theorem attemptLoop_allFail (orig : Str) (cand : CandidateEntry) (rf : Bool)
    (stop : Nat → Bool) (copy : Nat → Option Str) (f : Nat → Str) :
    ∀ (remaining a : Nat) (sleeps : List Nat), 1 ≤ remaining →
      (∀ j, j < remaining → stop (a + j + 1) = false) →
      (∀ j, j < remaining → copy (a + j) = some (f (a + j))) →
      attemptLoop orig cand rf stop copy a remaining sleeps =
        some ⟨errorResult orig (f (a + remaining - 1)) cand.directory,
          sleeps ++ (List.range (remaining - 1)).map (fun j => 2 ^ (a + j)),
          a + remaining⟩ := by
  intro remaining
  induction remaining with
  | zero =>
    intro a sleeps h
    exact (Nat.not_succ_le_zero 0 h).elim
  | succ r ih =>
    intro a sleeps _ hstop hcopy
    have h0 : stop (a + 1) = false := by simpa using hstop 0 (Nat.succ_pos r)
    have hc0 : copy a = some (f a) := by simpa using hcopy 0 (Nat.succ_pos r)
    simp only [attemptLoop]
    rw [if_neg (by simp [h0]), hc0]
    dsimp only
    by_cases hr : r = 0
    · subst hr
      rw [if_pos rfl]
      simp
    · rw [if_neg hr]
      have hstop' : ∀ j, j < r → stop (a + 1 + j + 1) = false := by
        intro j hj
        have hj2 := hstop (j + 1) (by omega)
        rw [show a + (j + 1) + 1 = a + 1 + j + 1 from by omega] at hj2
        exact hj2
      have hcopy' : ∀ j, j < r → copy (a + 1 + j) = some (f (a + 1 + j)) := by
        intro j hj
        have hj2 := hcopy (j + 1) (by omega)
        rw [show a + (j + 1) = a + 1 + j from by omega] at hj2
        exact hj2
      rw [ih (a + 1) (sleeps ++ [2 ^ a]) (Nat.one_le_iff_ne_zero.mpr hr) hstop' hcopy']
      rw [show a + 1 + r - 1 = a + (r + 1) - 1 from by omega,
        show a + 1 + r = a + (r + 1) from by omega, List.append_assoc]
      simp only [List.cons_append, List.nil_append]
      rw [range_pow_shift]
      rw [show r - 1 + 1 = r from by omega, show a + (r + 1) - 1 = a + r from by omega,
        show r + 1 - 1 = r from by omega]

theorem attemptLoop_succAt (orig : Str) (cand : CandidateEntry) (rf : Bool)
    (stop : Nat → Bool) (copy : Nat → Option Str) (f : Nat → Str) :
    ∀ (k remaining a : Nat) (sleeps : List Nat), k < remaining →
      (∀ j, j < k → stop (a + j + 1) = false) →
      (∀ j, j < k → copy (a + j) = some (f (a + j))) →
      stop (a + k + 1) = false →
      copy (a + k) = none →
      attemptLoop orig cand rf stop copy a remaining sleeps =
        some ⟨mainSuccessResult orig cand rf,
          sleeps ++ (List.range k).map (fun j => 2 ^ (a + j)), a + k + 1⟩ := by
  intro k
  induction k with
  | zero =>
    intro remaining a sleeps hk hstop hcopy hs hc
    obtain ⟨r, rfl⟩ : ∃ r, remaining = r + 1 := ⟨remaining - 1, by omega⟩
    have hs0 : stop (a + 1) = false := by simpa using hs
    have hc0 : copy a = none := by simpa using hc
    simp only [attemptLoop]
    rw [if_neg (by simp [hs0]), hc0]
    simp
  | succ k ih =>
    intro remaining a sleeps hk hstop hcopy hs hc
    obtain ⟨r, rfl⟩ : ∃ r, remaining = r + 1 := ⟨remaining - 1, by omega⟩
    have h0 : stop (a + 1) = false := by simpa using hstop 0 (Nat.succ_pos k)
    have hc0 : copy a = some (f a) := by simpa using hcopy 0 (Nat.succ_pos k)
    simp only [attemptLoop]
    rw [if_neg (by simp [h0]), hc0]
    dsimp only
    have hr : ¬ r = 0 := by omega
    rw [if_neg hr]
    have hstop' : ∀ j, j < k → stop (a + 1 + j + 1) = false := by
      intro j hj
      have hj2 := hstop (j + 1) (by omega)
      rw [show a + (j + 1) + 1 = a + 1 + j + 1 from by omega] at hj2
      exact hj2
    have hcopy' : ∀ j, j < k → copy (a + 1 + j) = some (f (a + 1 + j)) := by
      intro j hj
      have hj2 := hcopy (j + 1) (by omega)
      rw [show a + (j + 1) = a + 1 + j from by omega] at hj2
      exact hj2
    have hs' : stop (a + 1 + k + 1) = false := by
      rw [show a + 1 + k + 1 = a + (k + 1) + 1 from by omega]
      exact hs
    have hc' : copy (a + 1 + k) = none := by
      rw [show a + 1 + k = a + (k + 1) from by omega]
      exact hc
    rw [ih r (a + 1) (sleeps ++ [2 ^ a]) (by omega) hstop' hcopy' hs' hc']
    rw [List.append_assoc]
    simp only [List.cons_append, List.nil_append]
    rw [range_pow_shift]
    rw [show a + 1 + k + 1 = a + (k + 1) + 1 from by omega]

/-! ## Claims about matching and retry -/

/-- C3: for a matched item processed with no cancellation, a copy that fails
on every attempt performs exactly `retryAttempts` attempts, yields the error
result carrying the last failure reason, and sleeps `2 ^ attempt` time units
between consecutive attempts with no sleep after the final attempt; a copy
that first succeeds at attempt `k` (any attempt up to the last) yields the
success result after `k + 1` attempts with the same backoff before it. -/
theorem claim_C3 :
    ∀ (index : FileIndex) (orig search : Str) (retry : Nat) (cand : CandidateEntry)
      (copy : Nat → Option Str) (f : Nat → Str) (rf : Bool),
      1 ≤ retry →
      firstMatch search (index (bucketKeyOf search)) = some cand →
      ((∀ a, a < retry → copy a = some (f a)) →
        processItem (orig, search) index retry (fun _ => false) copy rf =
          ⟨errorResult orig (f (retry - 1)) cand.directory,
            (List.range (retry - 1)).map (fun a => 2 ^ a), retry⟩) ∧
      (∀ k, k < retry → (∀ a, a < k → copy a = some (f a)) → copy k = none →
        processItem (orig, search) index retry (fun _ => false) copy rf =
          ⟨mainSuccessResult orig cand rf, (List.range k).map (fun a => 2 ^ a), k + 1⟩) := by
  intro index orig search retry cand copy f rf hr hm
  constructor
  · intro hall
    have hal := attemptLoop_allFail orig cand rf (fun _ => false) copy f retry 0 [] hr
      (fun j _ => rfl) (fun j hj => by simpa using hall j (by omega))
    simp only [Nat.zero_add, List.nil_append] at hal
    exact processItem_matched (orig, search) index retry (fun _ => false) copy rf rfl hr hm hal
  · intro k hk hlt hk0
    have hal := attemptLoop_succAt orig cand rf (fun _ => false) copy f k retry 0 [] hk
      (fun j _ => rfl) (fun j hj => by simpa using hlt j (by omega)) rfl (by simpa using hk0)
    simp only [Nat.zero_add, List.nil_append] at hal
    exact processItem_matched (orig, search) index retry (fun _ => false) copy rf rfl hr hm hal

/-- C3 witness: the retry behaviour at a concrete index (one matched file),
`retryAttempts = 3`: an always-failing copy gives the error result after 3
attempts with sleeps `[1, 2]`; a copy succeeding on the final allowed attempt
gives the success result after 3 attempts with the same sleeps. -/
theorem claim_C3_witness :
    processItem (str "ABCD1", str "abcd1")
        (buildFileIndex [some [(str "ABCD1.STEP", str "D")]] false) 3 (fun _ => false)
        (fun _ => some (str "io")) false =
      ⟨errorResult (str "ABCD1") (str "io") (str "D"), [1, 2], 3⟩ ∧
    processItem (str "ABCD1", str "abcd1")
        (buildFileIndex [some [(str "ABCD1.STEP", str "D")]] false) 3 (fun _ => false)
        (fun a => if a = 2 then none else some (str "io")) false =
      ⟨mainSuccessResult (str "ABCD1") ⟨str "abcd1", str "ABCD1.STEP", str "D"⟩ false, [1, 2], 3⟩ :=
  ⟨(claim_C3 (buildFileIndex [some [(str "ABCD1.STEP", str "D")]] false) (str "ABCD1")
      (str "abcd1") 3 ⟨str "abcd1", str "ABCD1.STEP", str "D"⟩ (fun _ => some (str "io"))
      (fun _ => str "io") false (by omega) (by decide)).1 (fun a _ => rfl),
   (claim_C3 (buildFileIndex [some [(str "ABCD1.STEP", str "D")]] false) (str "ABCD1")
      (str "abcd1") 3 ⟨str "abcd1", str "ABCD1.STEP", str "D"⟩
      (fun a => if a = 2 then none else some (str "io")) (fun _ => str "io") false
      (by omega) (by decide)).2 2 (by omega) (fun a ha => if_neg (by omega)) rfl⟩

/-- C1 counterexample: the claim asserts that every per-item lookup uses
exact key equality, and that an entry normalizing to `"abcd"` checked against
a single candidate with canonical key `"abcd1"` yields NotFound; but
`process_item` of src/3d-batch-copy.py (cited by the claim) matches with
`clean_base.startswith(search_name)`, so there the `"abcd"` entry yields
Success against that candidate. -/
theorem claim_C1_counterexample :
    legacyCleanFilename (str "ABCD") = str "abcd" ∧
    (legacyProcessItem (str "ABCD", str "abcd")
        (fun q => if q = str "abcd" then [⟨str "abcd1", str "ABCD1.STEP", str "D"⟩] else [])
        3 (fun _ => none)).result.status = .success := by
  exact ⟨by decide, by decide⟩

/-- C1 (amended): in the current revisions (`process_item` of
src/3D文件批量复制工具.py and src/main_gui.py) the lookup selects a candidate
only by exact equality of the candidate's canonical key with the search key,
first match in bucket order (a miss yields NotFound); in particular, against
one candidate with canonical key `"abcd1"`, an entry normalizing to
`"abcd1"` yields Success and an entry normalizing to `"abcd"` yields
NotFound.  The legacy revision src/3d-batch-copy.py instead matches by
`startswith`, where the `"abcd"` entry yields Success (see the
counterexample). -/
theorem claim_C1 :
    (∀ (item : Str × Str) (index : FileIndex) (retry : Nat) (stop : Nat → Bool)
        (copy : Nat → Option Str) (rf : Bool),
      1 ≤ retry → stop 0 = false →
      ((firstMatch item.2 (index (bucketKeyOf item.2)) = none →
        processItem item index retry stop copy rf = ⟨notFoundResult item.1, [], 0⟩) ∧
       (∀ (c : CandidateEntry) (run : ItemRun),
        firstMatch item.2 (index (bucketKeyOf item.2)) = some c →
        attemptLoop item.1 c rf stop copy 0 retry [] = some run →
        c.cleanBase = item.2 ∧ processItem item index retry stop copy rf = run))) ∧
    cleanFilename (str "ABCD1") = str "abcd1" ∧
    cleanFilename (str "ABCD") = str "abcd" ∧
    (processItem (str "ABCD1", str "abcd1")
        (buildFileIndex [some [(str "ABCD1.STEP", str "D")]] false) 3 (fun _ => false)
        (fun _ => none) false).result.status = .success ∧
    (processItem (str "ABCD", str "abcd")
        (buildFileIndex [some [(str "ABCD1.STEP", str "D")]] false) 3 (fun _ => false)
        (fun _ => none) false).result.status = .notFound := by
  refine ⟨?_, by decide, by decide, by decide, by decide⟩
  intro item index retry stop copy rf hr h0
  refine ⟨fun hm => processItem_noMatch item index retry stop copy rf h0 hr hm, ?_⟩
  intro c run hm hal
  exact ⟨(firstMatch_spec hm).1, processItem_matched item index retry stop copy rf h0 hr hm hal⟩

/-- C1 witness: the general exact-match clause applied at a concrete index
and item, giving the concrete success run. -/
theorem claim_C1_witness :
    (⟨str "abcd1", str "ABCD1.STEP", str "D"⟩ : CandidateEntry).cleanBase = str "abcd1" ∧
    processItem (str "ABCD1", str "abcd1")
        (buildFileIndex [some [(str "ABCD1.STEP", str "D")]] false) 3 (fun _ => false)
        (fun _ => none) false =
      ⟨mainSuccessResult (str "ABCD1") ⟨str "abcd1", str "ABCD1.STEP", str "D"⟩ false, [], 1⟩ :=
  (claim_C1.1 (str "ABCD1", str "abcd1")
      (buildFileIndex [some [(str "ABCD1.STEP", str "D")]] false) 3 (fun _ => false)
      (fun _ => none) false (by omega) rfl).2
    ⟨str "abcd1", str "ABCD1.STEP", str "D"⟩ _ (by decide) (by decide)

/-! ## Extension handling -/

theorem findIdx_dot_shift {w : Str} (hw : '.' ∉ w) (rest : Str) :
    (w ++ '.' :: rest).findIdx (fun c => c == '.') = w.length := by
  induction w with
  | nil => simp [List.findIdx_cons]
  | cons a as ih =>
    have ha : (a == '.') = false := by
      simp only [beq_eq_false_iff_ne]
      intro h
      exact hw (h ▸ List.mem_cons_self _ _)
    simp only [List.cons_append, List.findIdx_cons, ha, cond_false, List.length_cons]
    rw [ih (fun h => hw (List.mem_cons.mpr (Or.inr h)))]

theorem splitExt_append {u w : Str} (hw : '.' ∉ w) :
    splitExt (u ++ '.' :: w) =
      if u.any (fun c => !(c == '.')) then (u, '.' :: w) else (u ++ '.' :: w, []) := by
  have hrev : (u ++ '.' :: w).reverse = w.reverse ++ '.' :: u.reverse := by
    simp [List.reverse_append, List.reverse_cons, List.append_assoc]
  have hfind : (u ++ '.' :: w).reverse.findIdx (fun c => c == '.') = w.length := by
    rw [hrev]
    exact (findIdx_dot_shift (by simpa using hw) u.reverse).trans (by simp)
  have hlen : (u ++ '.' :: w).length = u.length + (w.length + 1) := by simp
  have hi : u.length + (w.length + 1) - 1 - w.length = u.length := by omega
  simp only [splitExt]
  rw [hfind, hlen, hi, if_pos (by omega : w.length < u.length + (w.length + 1))]
  rw [List.take_left' rfl, List.drop_left' rfl]

theorem upperExt_of_step_suffix {f : Str}
    (hsuf : (str ".step").isSuffixOf (lowerStr f) = true)
    (hne : (splitExt f).2 ≠ []) :
    upperStr (splitExt f).2 = str ".STEP" := by
  rw [List.isSuffixOf_iff_suffix] at hsuf
  obtain ⟨g, hg⟩ := hsuf
  have hlen : f.length = g.length + 5 := by
    have h1 := congrArg List.length hg
    simp only [List.length_append, lowerStr, List.length_map] at h1
    have h2 : (str ".step").length = 5 := rfl
    omega
  have hvlow : lowerStr (f.drop g.length) = str ".step" := by
    show (f.drop g.length).map Char.toLower = str ".step"
    rw [List.map_drop]
    rw [show f.map Char.toLower = lowerStr f from rfl, ← hg]
    exact List.drop_left' rfl
  have hvne : f.drop g.length ≠ [] := by
    intro h
    rw [h] at hvlow
    exact absurd hvlow (by decide)
  obtain ⟨c, w, hvw⟩ : ∃ c w, f.drop g.length = c :: w := by
    cases hd : f.drop g.length with
    | nil => exact absurd hd hvne
    | cons c w => exact ⟨c, w, rfl⟩
  rw [hvw] at hvlow
  rw [show str ".step" = '.' :: str "step" from rfl] at hvlow
  simp only [lowerStr, List.map_cons] at hvlow
  injection hvlow with h1 h2
  have hc : c = '.' := toLower_eq_dot h1
  have hwnd : '.' ∉ w := by
    intro hmem
    have hm2 : '.' ∈ w.map Char.toLower := List.mem_map.mpr ⟨'.', hmem, by decide⟩
    rw [h2] at hm2
    exact absurd hm2 (by decide)
  have hfw : f = f.take g.length ++ '.' :: w := by
    conv_lhs => rw [← List.take_append_drop g.length f]
    rw [hvw, hc]
  have hsplit := splitExt_append (u := f.take g.length) hwnd
  rw [← hfw] at hsplit
  by_cases hany : (f.take g.length).any (fun c => !(c == '.')) = true
  · rw [hsplit, if_pos hany]
    show ('.' :: w).map Char.toUpper = str ".STEP"
    have h3 : ('.' :: w).map Char.toUpper = (('.' :: w).map Char.toLower).map Char.toUpper := by
      rw [List.map_map]
      exact (List.map_congr_left (fun a _ => toUpper_toLower a)).symm
    rw [h3]
    rw [show ('.' :: w).map Char.toLower = '.' :: w.map Char.toLower from rfl, h2]
    decide
  · exfalso
    rw [hsplit, if_neg hany] at hne
    exact hne rfl

theorem attemptLoop_success_shape (orig : Str) (cand : CandidateEntry) (rf : Bool)
    (stop : Nat → Bool) (copy : Nat → Option Str) :
    ∀ (remaining a : Nat) (sleeps : List Nat) (run : ItemRun),
      attemptLoop orig cand rf stop copy a remaining sleeps = some run →
      run.result.status = .success → run.result = mainSuccessResult orig cand rf := by
  intro remaining
  induction remaining with
  | zero =>
    intro a sleeps run h
    exact Option.noConfusion h
  | succ r ih =>
    intro a sleeps run h hs
    simp only [attemptLoop] at h
    split at h
    · injection h with h
      subst h
      exact Status.noConfusion hs
    · cases hc : copy a with
      | none =>
        rw [hc] at h
        dsimp only at h
        injection h with h
        subst h
        rfl
      | some e =>
        rw [hc] at h
        dsimp only at h
        split at h
        · injection h with h
          subst h
          exact Status.noConfusion hs
        · exact ih _ _ _ h hs

theorem scanBucket_success_shape (orig searchName : Str) (rf : Bool) (stop : Nat → Bool)
    (copy : Nat → Option Str) (retry : Nat) :
    ∀ (bucket : List CandidateEntry) (run : ItemRun),
      scanBucket orig searchName rf stop copy retry bucket = some run →
      run.result.status = .success →
      ∃ c, c ∈ bucket ∧ c.cleanBase = searchName ∧
        run.result = mainSuccessResult orig c rf := by
  intro bucket
  induction bucket with
  | nil =>
    intro run h _
    exact Option.noConfusion h
  | cons c rest ih =>
    intro run h hs
    simp only [scanBucket] at h
    split at h
    · next heq =>
      cases hal : attemptLoop orig c rf stop copy 0 retry [] with
      | some r =>
        rw [hal] at h
        dsimp only at h
        injection h with h
        subst h
        exact ⟨c, List.mem_cons_self _ _, heq,
          attemptLoop_success_shape orig c rf stop copy retry 0 [] r hal hs⟩
      | none =>
        rw [hal] at h
        dsimp only at h
        obtain ⟨d, hd, h1, h2⟩ := ih run h hs
        exact ⟨d, List.mem_cons.mpr (Or.inr hd), h1, h2⟩
    · obtain ⟨d, hd, h1, h2⟩ := ih run h hs
      exact ⟨d, List.mem_cons.mpr (Or.inr hd), h1, h2⟩

theorem processItem_success_shape (item : Str × Str) (index : FileIndex) (retry : Nat)
    (stop : Nat → Bool) (copy : Nat → Option Str) (rf : Bool) (run : ItemRun)
    (h : processItem item index retry stop copy rf = run)
    (hs : run.result.status = .success) :
    ∃ c, c ∈ index (bucketKeyOf item.2) ∧ c.cleanBase = item.2 ∧
      run.result = mainSuccessResult item.1 c rf := by
  unfold processItem at h
  split at h
  · subst h
    exact Status.noConfusion hs
  · cases hsc : scanBucket item.1 item.2 rf stop copy retry (index (bucketKeyOf item.2)) with
    | some r =>
      rw [hsc] at h
      dsimp only at h
      subst h
      exact scanBucket_success_shape item.1 item.2 rf stop copy retry _ r hsc hs
    | none =>
      rw [hsc] at h
      dsimp only at h
      subst h
      exact Status.noConfusion hs

/-- C7: destination naming is determined by rename mode.  For `process_item`
of src/3D文件批量复制工具.py, every Success result's copied name is the
manifest `originalName` plus the matched source file's own extension
upper-cased when `renameMode` is on (e.g. a matched `"foo.stp"` gives
`"Foo.STP"`), and the source file's name verbatim otherwise, with the
`renamed` flag set exactly in rename mode.  For `process_item` of
src/main_gui.py (which always appends the literal `".STEP"` in rename mode),
the destination name agrees with the same formula for every candidate its
index can contain — gui-indexed files end in `".step"` case-insensitively,
whose upper-cased extension is exactly `".STEP"` — stated for candidates with
a nonempty extension. -/
theorem claim_C7 :
    (∀ (item : Str × Str) (index : FileIndex) (retry : Nat) (stop : Nat → Bool)
        (copy : Nat → Option Str) (rf : Bool) (run : ItemRun),
      processItem item index retry stop copy rf = run →
      run.result.status = .success →
      ∃ c, c ∈ index (bucketKeyOf item.2) ∧ c.cleanBase = item.2 ∧
        run.result.copied =
          (if rf then item.1 ++ upperStr (splitExt c.fileName).2 else c.fileName) ∧
        run.result.renamedTo = (if rf then some item.1 else none)) ∧
    (∀ (roots : List RootScan) (b : Str) (e : CandidateEntry) (orig : Str) (rf : Bool),
      e ∈ guiBuildFileIndex roots b →
      (splitExt e.fileName).2 ≠ [] →
      guiDstName orig e.fileName rf =
        (if rf then orig ++ upperStr (splitExt e.fileName).2 else e.fileName)) ∧
    (processItem (str "Foo", str "foo")
        (buildFileIndex [some [(str "foo.stp", str "D")]] false) 3 (fun _ => false)
        (fun _ => none) true).result.copied = str "Foo.STP" := by
  refine ⟨?_, ?_, by decide⟩
  · intro item index retry stop copy rf run h hs
    obtain ⟨c, hc1, hc2, hc3⟩ :=
      processItem_success_shape item index retry stop copy rf run h hs
    refine ⟨c, hc1, hc2, ?_, ?_⟩
    · rw [hc3]
      rfl
    · rw [hc3]
      rfl
  · intro roots b e orig rf hmem hne
    have hsuf := guiBuildFileIndex_stepInv roots b e hmem
    have hup := upperExt_of_step_suffix hsuf hne
    unfold guiDstName
    cases rf with
    | true => rw [if_pos rfl, if_pos rfl, hup]
    | false => rfl

/-- C7 witness: the two general clauses applied at concrete inputs — a rename
run matching `"foo.stp"`, and a gui-indexed `"a.step"` candidate. -/
theorem claim_C7_witness :
    (∃ c, c ∈ (buildFileIndex [some [(str "foo.stp", str "D")]] false)
        (bucketKeyOf (str "foo")) ∧ c.cleanBase = str "foo" ∧
      (processItem (str "Foo", str "foo")
          (buildFileIndex [some [(str "foo.stp", str "D")]] false) 3 (fun _ => false)
          (fun _ => none) true).result.copied =
        (if true then str "Foo" ++ upperStr (splitExt c.fileName).2 else c.fileName) ∧
      (processItem (str "Foo", str "foo")
          (buildFileIndex [some [(str "foo.stp", str "D")]] false) 3 (fun _ => false)
          (fun _ => none) true).result.renamedTo =
        (if true then some (str "Foo") else none)) ∧
    guiDstName (str "X") (str "a.step") true =
      (if true then str "X" ++ upperStr (splitExt (str "a.step")).2 else str "a.step") :=
  ⟨claim_C7.1 (str "Foo", str "foo")
      (buildFileIndex [some [(str "foo.stp", str "D")]] false) 3 (fun _ => false)
      (fun _ => none) true _ rfl (by decide),
   claim_C7.2.1 [some [(str "a.step", str "D")]] (str "a")
      ⟨str "a", str "a.step", str "D"⟩ (str "X") true (by decide) (by decide)⟩

/-! ## Facts about the orchestrator loop -/

theorem collectFrom_noCancel (sig : Nat → Bool) (h : ∀ i, sig i = false) :
    ∀ (n : Nat) (l : List CopyResult), collectFrom sig n l = l := by
  intro n l
  induction l generalizing n with
  | nil => rfl
  | cons r rest ih => simp [collectFrom, h n, ih (n + 1)]

theorem collectFrom_initSeg (sig : Nat → Bool) :
    ∀ (n : Nat) (l : List CopyResult), InitSeg (collectFrom sig n l) l := by
  intro n l
  induction l generalizing n with
  | nil => exact initSeg_refl []
  | cons r rest ih =>
    simp only [collectFrom]
    split
    · exact ⟨r :: rest, rfl⟩
    · obtain ⟨t, ht⟩ := ih (n + 1)
      exact ⟨t, by rw [List.cons_append, ← ht]⟩

theorem workerRun_resultLog {lst : List Str} (hne : lst ≠ []) (sig : Nat → Bool)
    (finalSig : Bool) (completed : List CopyResult) :
    (workerRun (some lst) sig finalSig completed).resultLog = collectFrom sig 0 completed := by
  cases lst with
  | nil => exact absurd rfl hne
  | cons a l' => rfl

/-! ## Claims about cancellation and the result log -/

/-- C2 counterexample: with the cancel signal already raised, every submitted
`process_item` future still yields one (Cancelled) result — the two-item
manifest produces two results — but the orchestrator's collection loop of
src/3D文件批量复制工具.py lines 579-604 breaks as soon as it observes the
stop event, so the collected `result_log` holds 0 results, not one per
manifest item as the claim asserts. -/
theorem claim_C2_counterexample :
    (workerRun (some [str "A", str "B"]) (fun _ => true) true
        ((searchItems [str "A", str "B"]).map
          (fun it =>
            (processItem it (fun _ => []) 3 (fun _ => true) (fun _ => none)
              false).result))).resultLog.length = 0 ∧
    ((searchItems [str "A", str "B"]).map
        (fun it =>
          (processItem it (fun _ => []) 3 (fun _ => true) (fun _ => none)
            false).result)).length = 2 ∧
    (0 : Nat) ≠ 2 := by
  refine ⟨by decide, by decide, by decide⟩

/-- C2 (amended): every submitted item's `process_item` call produces exactly
one result (one per manifest item, even when the stop event is set), and for
a run in which the cancel signal is never observed the orchestrator collects
exactly those results, one per manifest item; but on a cancelled run the
collection loop stops at the first observation of the signal, so the
collected results form an initial segment of the completed results and their
count can be smaller than the manifest item count (the collected log is
discarded in that case anyway, see C9). -/
theorem claim_C2 :
    ∀ (lst : List Str) (index : FileIndex) (retry : Nat) (stop : Nat → Bool)
      (copy : Nat → Option Str) (rf : Bool) (sig : Nat → Bool) (finalSig : Bool)
      (completed : List CopyResult),
      lst ≠ [] →
      completed.length = lst.length →
      (((searchItems lst).map
          (fun it => (processItem it index retry stop copy rf).result)).length =
        lst.length) ∧
      InitSeg (workerRun (some lst) sig finalSig completed).resultLog completed ∧
      ((∀ i, sig i = false) →
        (workerRun (some lst) sig finalSig completed).resultLog = completed ∧
        (workerRun (some lst) sig finalSig completed).resultLog.length = lst.length) := by
  intro lst index retry stop copy rf sig finalSig completed hne hlen
  refine ⟨by simp [searchItems], ?_, ?_⟩
  · rw [workerRun_resultLog hne]
    exact collectFrom_initSeg sig 0 completed
  · intro hnc
    rw [workerRun_resultLog hne, collectFrom_noCancel sig hnc]
    exact ⟨rfl, hlen⟩

/-- C2 witness: the amended statement applied to a concrete one-item
non-cancelled run. -/
theorem claim_C2_witness :
    (((searchItems [str "A"]).map
        (fun it =>
          (processItem it (fun _ => []) 3 (fun _ => false) (fun _ => none)
            false).result)).length = ([str "A"] : List Str).length) ∧
    InitSeg (workerRun (some [str "A"]) (fun _ => false) false
        [notFoundResult (str "A")]).resultLog [notFoundResult (str "A")] ∧
    ((∀ i, (fun _ => false : Nat → Bool) i = false) →
      (workerRun (some [str "A"]) (fun _ => false) false
          [notFoundResult (str "A")]).resultLog = [notFoundResult (str "A")] ∧
      (workerRun (some [str "A"]) (fun _ => false) false
          [notFoundResult (str "A")]).resultLog.length = ([str "A"] : List Str).length) :=
  claim_C2 [str "A"] (fun _ => []) 3 (fun _ => false) (fun _ => none) false
    (fun _ => false) false [notFoundResult (str "A")] (by decide) (by decide)

/-- C9: for a run that got past the manifest read (non-empty manifest), the
result log is handed to `write_result_log` exactly when the stop event is
unset at run end: a cancelled run ends with no log write (its collected
results are discarded), a non-cancelled run always attempts the write, with
the header row followed by one row per collected result in collection order,
and the completion event's flag is the negation of the stop signal. -/
theorem claim_C9 :
    ∀ (lst : List Str) (sig : Nat → Bool) (finalSig : Bool)
      (completed : List CopyResult),
      lst ≠ [] →
      (((workerRun (some lst) sig finalSig completed).logRows ≠ none) ↔ finalSig = false) ∧
      (finalSig = false →
        (workerRun (some lst) sig finalSig completed).logRows =
          some (logHeader ::
            (workerRun (some lst) sig finalSig completed).resultLog.map logRow)) ∧
      (finalSig = true → (workerRun (some lst) sig finalSig completed).logRows = none) ∧
      (workerRun (some lst) sig finalSig completed).completeOk = !finalSig := by
  intro lst sig fs completed hne
  cases lst with
  | nil => exact absurd rfl hne
  | cons a l' =>
    cases fs with
    | false =>
      refine ⟨?_, fun _ => rfl, ?_, rfl⟩
      · simp [workerRun, workerTail]
      · intro h
        exact absurd h (by decide)
    | true =>
      refine ⟨?_, ?_, fun _ => rfl, rfl⟩
      · simp [workerRun, workerTail]
      · intro h
        exact absurd h (by decide)

/-- C9 witness: the statement applied to a concrete one-item run, both
non-cancelled (log written) and cancelled (log discarded). -/
theorem claim_C9_witness :
    ((((workerRun (some [str "A"]) (fun _ => false) false
          [notFoundResult (str "A")]).logRows ≠ none) ↔ false = false) ∧
      (false = false →
        (workerRun (some [str "A"]) (fun _ => false) false
            [notFoundResult (str "A")]).logRows =
          some (logHeader ::
            (workerRun (some [str "A"]) (fun _ => false) false
              [notFoundResult (str "A")]).resultLog.map logRow)) ∧
      (false = true →
        (workerRun (some [str "A"]) (fun _ => false) false
            [notFoundResult (str "A")]).logRows = none) ∧
      (workerRun (some [str "A"]) (fun _ => false) false
          [notFoundResult (str "A")]).completeOk = !false) ∧
    ((((workerRun (some [str "A"]) (fun _ => true) true
          [notFoundResult (str "A")]).logRows ≠ none) ↔ true = false) ∧
      (true = false →
        (workerRun (some [str "A"]) (fun _ => true) true
            [notFoundResult (str "A")]).logRows =
          some (logHeader ::
            (workerRun (some [str "A"]) (fun _ => true) true
              [notFoundResult (str "A")]).resultLog.map logRow)) ∧
      (true = true →
        (workerRun (some [str "A"]) (fun _ => true) true
            [notFoundResult (str "A")]).logRows = none) ∧
      (workerRun (some [str "A"]) (fun _ => true) true
          [notFoundResult (str "A")]).completeOk = !true) :=
  ⟨claim_C9 [str "A"] (fun _ => false) false [notFoundResult (str "A")] (by decide),
   claim_C9 [str "A"] (fun _ => true) true [notFoundResult (str "A")] (by decide)⟩
